import Mathlib

/-!
Verification of a small configuration-language compiler (`main.py`).

The pipeline is: lexer → LALR-style parser → a `Transformer` pass
(constant resolution, duplicate detection) → TOML serialization.
All definitions below are shallow embeddings of the corresponding
Python functions in `main.py`.  Python dicts are modelled as
insertion-ordered association sequences (`REntries`).
-/

namespace Config

mutual

/-- Resolved values: Python ints, dicts (insertion-ordered), or
`None` (the sentinel returned by `use_const` for an undefined constant). -/
inductive RVal where
  | integer (n : Nat)
  | table (entries : REntries)
  | unresolved
deriving DecidableEq

/-- An insertion-ordered sequence of `(key, value)` pairs; used both
for transformed entry lists and for the Python dicts built from them. -/
inductive REntries where
  | nil
  | cons (k : String) (v : RVal) (rest : REntries)
deriving DecidableEq

end

mutual

/-- AST of values, as produced by the grammar rules
`value: number | dict | const_ref`.  `numberLit` keeps the raw matched
token text (e.g. `"0b11"`), exactly what the `number` callback receives. -/
inductive Value where
  | numberLit (s : String)
  | tableExpr (entries : VEntries)
  | constRef (n : String)
deriving DecidableEq

/-- The ordered `dict_entry*` children of a `dict` node. -/
inductive VEntries where
  | nil
  | cons (k : String) (v : Value) (rest : VEntries)
deriving DecidableEq

end

/-- Top-level statements: `const_decl: IDENT ":" value ";"` and
`dict_entry: IDENT "=" value ","?`. -/
inductive Stmt where
  | constDecl (name : String) (v : Value)
  | dictEntry (key : String) (v : Value)
deriving DecidableEq

/-- Semantic diagnostics collected in `self.errors`.  The Python code
stores the rendered strings; we keep the tag and render with `Diag.msg`. -/
inductive Diag where
  | redefinition (name : String)
  | undefined (name : String)
  | dup (key : String)
deriving DecidableEq

/-- The exact f-string messages appended to `self.errors` in `main.py`. -/
def Diag.msg : Diag → String
  | .redefinition n => "Constant '" ++ n ++ "' redefined"
  | .undefined n => "Undefined constant '" ++ n ++ "'"
  | .dup k => "Duplicate key '" ++ k ++ "' in table"

namespace REntries

/-- Python `k in d` / `d[k]` on an insertion-ordered dict. -/
def lookup : REntries → String → Option RVal
  | .nil, _ => none
  | .cons k v r, n => if k = n then some v else lookup r n

/-- Python `d[k] = v`: overwrite in place if the key is present
(keeping its first-seen position), otherwise append at the end. -/
def insert : REntries → String → RVal → REntries
  | .nil, k, v => .cons k v .nil
  | .cons k' v' r, k, v =>
      if k' = k then .cons k' v r else .cons k' v' (insert r k v)

/-- The keys of the sequence, in order. -/
def keys : REntries → List String
  | .nil => []
  | .cons k _ r => k :: keys r

/-- How many entries carry the key `n`. -/
def countKey (n : String) : REntries → Nat
  | .nil => 0
  | .cons k _ r => (if k = n then 1 else 0) + countKey n r

/-- The value of the last entry carrying key `n`, if any. -/
def lastVal (n : String) : REntries → Option RVal
  | .nil => none
  | .cons k v r =>
      match lastVal n r with
      | some w => some w
      | none => if k = n then some v else none

/-- Append two entry sequences. -/
def append : REntries → REntries → REntries
  | .nil, l => l
  | .cons k v r, l => .cons k v (append r l)

end REntries

/-- Horner evaluation of binary digit characters (non-`'1'` counts as 0). -/
def binDigits (cs : List Char) : Nat :=
  cs.foldl (fun a c => 2 * a + (if c = '1' then 1 else 0)) 0

/-- Python `int(s, 2)` on the texts matched by `BIN_NUMBER`:
an optional `0b`/`0B` prefix followed by binary digits. -/
def pyIntBase2 (s : String) : Nat :=
  match s.data with
  | '0' :: 'b' :: rest => binDigits rest
  | '0' :: 'B' :: rest => binDigits rest
  | cs => binDigits cs

/-- The mutable state of the Python `ConfigTransformer` instance:
`self.constants` and `self.errors`. -/
structure ConfigTransformer where
  constants : REntries
  errors : List Diag
deriving DecidableEq

/-- The loop body of `make_dict`: thread the result dict and the
duplicate-key diagnostics over the already-transformed `(key, value)`
items, checking `if k in result` before `result[k] = v`. -/
def make_dictAux : REntries → List Diag → REntries → REntries × List Diag
  | res, errs, .nil => (res, errs)
  | res, errs, .cons k v rest =>
      make_dictAux (res.insert k v)
        (if (res.lookup k).isSome then errs ++ [.dup k] else errs) rest

/-- `ConfigTransformer.make_dict`: build a dict from the transformed
`dict_entry` children, flagging duplicate keys (last write wins). -/
def make_dict (items : REntries) : REntries × List Diag :=
  make_dictAux .nil [] items

mutual

/-- Value resolution as performed by the bottom-up `Transformer`
traversal: `number` parses the literal, `use_const` looks the name up in
the constant table built so far (appending `Undefined constant` and
returning `None` on a miss), and a `dict` node first transforms all its
entries in order and then runs `make_dict` over them. -/
def resolveValue (st : ConfigTransformer) : Value → ConfigTransformer × RVal
  | .numberLit s => (st, .integer (pyIntBase2 s))
  | .constRef n =>
      match st.constants.lookup n with
      | some v => (st, v)
      | none => ({ st with errors := st.errors ++ [.undefined n] }, .unresolved)
  | .tableExpr es =>
      let p := resolveEntries st es
      let md := make_dict p.2
      ({ p.1 with errors := p.1.errors ++ md.2 }, .table md.1)

/-- Left-to-right transformation of the `dict_entry` children of a
`dict` node (each `dict_item` returns its `(key, value)` pair). -/
def resolveEntries (st : ConfigTransformer) :
    VEntries → ConfigTransformer × REntries
  | .nil => (st, .nil)
  | .cons k v r =>
      let p := resolveValue st v
      let q := resolveEntries p.1 r
      (q.1, .cons k p.2 q.2)

end

/-- `ConfigTransformer.declare_const`, applied after the declaration's
value subtree has been transformed (Lark visits children first): flag a
redefinition if the name is already bound, then overwrite it. -/
def declare_const (st : ConfigTransformer) (name : String) (v : Value) :
    ConfigTransformer :=
  let p := resolveValue st v
  let st1 :=
    if (p.1.constants.lookup name).isSome
    then { p.1 with errors := p.1.errors ++ [.redefinition name] }
    else p.1
  { st1 with constants := st1.constants.insert name p.2 }

/-- Transform the top-level statements in document order, producing the
list of items the `start` callback receives: `declare_const` returns
`None` (dropped here, as `start` drops non-tuples), `dict_item` returns
a `(key, value)` pair (kept). -/
def transformStmts (st : ConfigTransformer) :
    List Stmt → ConfigTransformer × REntries
  | [] => (st, .nil)
  | .constDecl n v :: r => transformStmts (declare_const st n v) r
  | .dictEntry k v :: r =>
      let p := resolveValue st v
      let q := transformStmts p.1 r
      (q.1, .cons k p.2 q.2)

/-- `ConfigTransformer.start`: fold the surviving `(key, value)` tuples
into the top-level dict with plain `result[k] = v` (no duplicate check). -/
def start : REntries → REntries → REntries
  | res, .nil => res
  | res, .cons k v rest => start (res.insert k v) rest

/-- The whole `transformer.transform(tree)` call on a parsed program:
final transformer state (constants and errors) plus the top-level table. -/
def transform (stmts : List Stmt) : ConfigTransformer × REntries :=
  let p := transformStmts { constants := .nil, errors := [] } stmts
  (p.1, start .nil p.2)

/-- Python `"\n".join`. -/
def joinNL : List String → String
  | [] => ""
  | [s] => s
  | s :: r => s ++ "\n" ++ joinNL r

/-- `"  " * indent`. -/
def pad : Nat → String
  | 0 => ""
  | n + 1 => "  " ++ pad n

/-- Python `f"{value}"` on the non-dict values that can appear in the
else-branch of `to_toml` (`str(None) = "None"`). -/
def pyStr : RVal → String
  | .integer n => toString n
  | .unresolved => "None"
  | .table _ => ""

mutual

/-- The `lines` list built by `to_toml`: a dict value contributes its
`[key]` header plus the single string returned by the recursive call;
any other value contributes its `key = value` line. -/
def toTomlLines (indent : Nat) : REntries → List String
  | .nil => []
  | .cons k (.table inner) r =>
      (pad indent ++ "[" ++ k ++ "]") ::
        joinNL (toTomlLines (indent + 1) inner) :: toTomlLines indent r
  | .cons k v r =>
      (pad indent ++ k ++ " = " ++ pyStr v) :: toTomlLines indent r

end

/-- `to_toml(data, indent)`: join the lines with `"\n"`. -/
def to_toml (data : REntries) (indent : Nat) : String :=
  joinNL (toTomlLines indent data)

/-! ### Lexer

Tokens of the grammar: `IDENT`, `BIN_NUMBER`, the fixed punctuation, and
the two multi-character delimiters `.(` and `).` of `const_ref`.
The keyword `table` is recognised contextually by the parser (as Lark's
contextual LALR lexer does), so it is lexed as an `IDENT` here. -/

inductive Tok where
  | ident (s : String)
  | binNumber (s : String)
  | colon | equals | comma | semi
  | lparen | rparen | lbracket | rbracket
  | constOpen | constClose
deriving DecidableEq

def isLowerAZ (c : Char) : Bool := 'a' ≤ c && c ≤ 'z'

def isWSChar (c : Char) : Bool := c = ' ' || c = '\t' || c = '\n' || c = '\r'

def isBit (c : Char) : Bool := c = '0' || c = '1'

/-- Skip a `--[[ ... ]]` comment body: drop characters up to and
including the first `]]` (non-greedy, as in the `COMMENT` regex). -/
def dropComment : Nat → List Char → Option (List Char)
  | 0, _ => none
  | _, [] => none
  | _ + 1, ']' :: ']' :: r => some r
  | fuel + 1, _ :: r => dropComment fuel r

/-- Prepend a token to the result of lexing the rest. -/
def consTok (t : Tok) : Except String (List Tok) → Except String (List Tok)
  | .ok ts => .ok (t :: ts)
  | .error e => .error e

/-- The lexer: maximal-munch over the character list, skipping
whitespace and comments.  `fuel` only bounds the recursion; it is
instantiated with more than the input length, and every step consumes
at least one character. -/
def lexChars : Nat → List Char → Except String (List Tok)
  | 0, _ => .error "out of fuel"
  | _, [] => .ok []
  | fuel + 1, c :: r =>
      if isWSChar c then lexChars fuel r
      else if isLowerAZ c then
        let sp := List.span isLowerAZ (c :: r)
        consTok (.ident (String.mk sp.1)) (lexChars fuel sp.2)
      else if c = '0' then
        match r with
        | b :: r2 =>
            if b = 'b' || b = 'B' then
              let sp := List.span isBit r2
              if sp.1 = [] then .error "malformed binary literal"
              else consTok (.binNumber (String.mk ('0' :: b :: sp.1))) (lexChars fuel sp.2)
            else .error "unexpected character"
        | [] => .error "unexpected character"
      else
        match c, r with
        | ':', _ => consTok .colon (lexChars fuel r)
        | '=', _ => consTok .equals (lexChars fuel r)
        | ',', _ => consTok .comma (lexChars fuel r)
        | ';', _ => consTok .semi (lexChars fuel r)
        | '(', _ => consTok .lparen (lexChars fuel r)
        | '[', _ => consTok .lbracket (lexChars fuel r)
        | ']', _ => consTok .rbracket (lexChars fuel r)
        | ')', '.' :: r2 => consTok .constClose (lexChars fuel r2)
        | ')', _ => consTok .rparen (lexChars fuel r)
        | '.', '(' :: r2 => consTok .constOpen (lexChars fuel r2)
        | '-', '-' :: '[' :: '[' :: r2 =>
            match dropComment fuel r2 with
            | some r3 => lexChars fuel r3
            | none => .error "unterminated comment"
        | _, _ => .error "unexpected character"

/-- Lex a whole source text. -/
def lexText (s : String) : Except String (List Tok) :=
  lexChars (s.length + 1) s.data

/-! ### Parser

Recursive descent for the LALR grammar:

    start: statement*
    ?statement: const_decl | dict_entry
    const_decl: IDENT ":" value ";"
    dict_entry: IDENT "=" value ","?
    ?value: number | dict | const_ref
    dict: "table" "(" "[" dict_entry* "]" ")"
    const_ref: ".(" IDENT ")."
-/

/-- Drop one optional comma (the `","?` of `dict_entry`). -/
def dropComma : List Tok → List Tok
  | .comma :: r => r
  | ts => ts

mutual

/-- Parse one `value`.  `table` is recognised contextually: an `IDENT`
in value position must be the keyword `table` followed by `(` `[`. -/
def parseValue : Nat → List Tok → Except String (Value × List Tok)
  | 0, _ => .error "out of fuel"
  | _ + 1, .binNumber s :: r => .ok (.numberLit s, r)
  | _ + 1, .constOpen :: .ident n :: .constClose :: r => .ok (.constRef n, r)
  | fuel + 1, .ident s :: .lparen :: .lbracket :: r =>
      if s = "table" then
        match parseTableEntries fuel r with
        | .ok (es, .rparen :: r2) => .ok (.tableExpr es, r2)
        | .ok (_, _) => .error "expected closing parenthesis"
        | .error e => .error e
      else .error "unexpected token in value"
  | _ + 1, _ => .error "unexpected token in value"

/-- Parse `dict_entry*` inside `table([ ... ])`, consuming the `]`. -/
def parseTableEntries : Nat → List Tok → Except String (VEntries × List Tok)
  | 0, _ => .error "out of fuel"
  | _ + 1, .rbracket :: r => .ok (.nil, r)
  | fuel + 1, .ident k :: .equals :: r =>
      match parseValue fuel r with
      | .ok (v, r2) =>
          match parseTableEntries fuel (dropComma r2) with
          | .ok (es, r3) => .ok (.cons k v es, r3)
          | .error e => .error e
      | .error e => .error e
  | _ + 1, _ => .error "expected table entry or closing bracket"

end

/-- Parse one `statement`: after the leading `IDENT`, one token of
lookahead (`:` vs `=`) selects `const_decl` vs `dict_entry`. -/
def parseStmt (fuel : Nat) : List Tok → Except String (Stmt × List Tok)
  | .ident n :: .colon :: r =>
      match parseValue fuel r with
      | .ok (v, .semi :: r2) => .ok (.constDecl n v, r2)
      | .ok (_, _) => .error "expected semicolon"
      | .error e => .error e
  | .ident n :: .equals :: r =>
      match parseValue fuel r with
      | .ok (v, r2) => .ok (.dictEntry n v, dropComma r2)
      | .error e => .error e
  | _ => .error "expected statement"

/-- Parse `statement*` up to the end of the token stream. -/
def parseStmts : Nat → List Tok → Except String (List Stmt)
  | 0, _ => .error "out of fuel"
  | _, [] => .ok []
  | fuel + 1, ts =>
      match parseStmt fuel ts with
      | .ok (s, r) =>
          match parseStmts fuel r with
          | .ok ss => .ok (s :: ss)
          | .error e => .error e
      | .error e => .error e

/-- Parse a whole token stream into a `Program`. -/
def parseProgram (ts : List Tok) : Except String (List Stmt) :=
  parseStmts (ts.length + 1) ts

/-! ### The `main` pipeline -/

/-- The part of `main()` after the file has been read: parse (printing
`Syntax error: ...` to stderr and exiting 1 on `UnexpectedInput`),
transform, then either print one `Error: ...` line per diagnostic and
exit 1, or print the TOML text (with `print`'s trailing newline) and
exit 0.  The result is `(exit code, stdout, stderr)`. -/
def mainRun (text : String) : Nat × String × String :=
  match lexText text with
  | .error e => (1, "", "Syntax error: " ++ e ++ "\n")
  | .ok ts =>
      match parseProgram ts with
      | .error e => (1, "", "Syntax error: " ++ e ++ "\n")
      | .ok prog =>
          let p := transform prog
          if p.1.errors = [] then (0, to_toml p.2 0 ++ "\n", "")
          else (1, "", String.join (p.1.errors.map (fun d => "Error: " ++ d.msg ++ "\n")))

/-! ### Auxiliary syntactic measures used in the theorem statements -/

/-- Number of `const_decl` statements for the name `n`. -/
def countDecl (n : String) : List Stmt → Nat
  | [] => 0
  | .constDecl m _ :: r => (if m = n then 1 else 0) + countDecl n r
  | .dictEntry _ _ :: r => countDecl n r

/-- The keys of the top-level `dict_entry` statements, in order. -/
def topEntryKeys : List Stmt → List String
  | [] => []
  | .constDecl _ _ :: r => topEntryKeys r
  | .dictEntry k _ :: r => k :: topEntryKeys r

/-- Fold a key sequence into a Python-dict key order: keep the position
of the first occurrence, ignore repeats. -/
def addKeys : List String → List String → List String
  | acc, [] => acc
  | acc, k :: r => addKeys (if k ∈ acc then acc else acc ++ [k]) r

/-! ### Basic lemmas about the insertion-ordered dict operations -/

theorem REntries.lookup_insert (k n : String) (v : RVal) :
    ∀ d : REntries, (d.insert k v).lookup n = if k = n then some v else d.lookup n
  | .nil => by
      simp only [REntries.insert, REntries.lookup]
  | .cons k' v' r => by
      by_cases hk : k' = k
      · subst hk
        by_cases hn : k' = n <;> simp [REntries.insert, REntries.lookup, hn]
      · by_cases hn : k' = n
        · subst hn
          have : ¬ k = k' := fun h => hk h.symm
          simp [REntries.insert, REntries.lookup, hk, this]
        · simp [REntries.insert, REntries.lookup, hk, hn,
            REntries.lookup_insert k n v r]

theorem REntries.lookup_isSome_iff_mem (k : String) :
    ∀ d : REntries, (d.lookup k).isSome = true ↔ k ∈ d.keys
  | .nil => by simp [REntries.lookup, REntries.keys]
  | .cons k' v' r => by
      by_cases h : k' = k
      · subst h; simp [REntries.lookup, REntries.keys]
      · have h' : ¬ k = k' := fun hh => h hh.symm
        simp [REntries.lookup, REntries.keys, h, h',
          REntries.lookup_isSome_iff_mem k r]

theorem REntries.keys_insert (k : String) (v : RVal) :
    ∀ d : REntries,
      (d.insert k v).keys = if (d.lookup k).isSome then d.keys else d.keys ++ [k]
  | .nil => by simp [REntries.insert, REntries.lookup, REntries.keys]
  | .cons k' v' r => by
      by_cases hk : k' = k
      · subst hk; simp [REntries.insert, REntries.lookup, REntries.keys]
      · simp [REntries.insert, REntries.lookup, REntries.keys, hk,
          REntries.keys_insert k v r]
        split <;> simp

/-- `lastVal` of an appended sequence. -/
theorem REntries.lastVal_append (n : String) :
    ∀ a b : REntries, (a.append b).lastVal n =
      match b.lastVal n with
      | some w => some w
      | none => a.lastVal n
  | .nil, b => by cases h : b.lastVal n <;> simp [REntries.append, REntries.lastVal, h]
  | .cons k v r, b => by
      cases h : b.lastVal n <;>
        simp [REntries.append, REntries.lastVal, REntries.lastVal_append n r b, h]

/-! ### Frame lemmas: value resolution only appends to `errors` (and
those appended diagnostics are never `Redefinition`) and never touches
`constants`. -/

/-- Tag check: is this diagnostic a `Redefinition`? -/
def Diag.isRedefinition : Diag → Bool
  | .redefinition _ => true
  | _ => false

theorem make_dictAux_cons_true (res : REntries) (errs : List Diag)
    (k' : String) (v : RVal) (rest : REntries)
    (h : (res.lookup k').isSome = true) :
    make_dictAux res errs (.cons k' v rest) =
      make_dictAux (res.insert k' v) (errs ++ [Diag.dup k']) rest := by
  simp [make_dictAux, h]

theorem make_dictAux_cons_false (res : REntries) (errs : List Diag)
    (k' : String) (v : RVal) (rest : REntries)
    (h : (res.lookup k').isSome = false) :
    make_dictAux res errs (.cons k' v rest) =
      make_dictAux (res.insert k' v) errs rest := by
  simp [make_dictAux, h]

/-- Every diagnostic the `make_dict` loop emits is a `DuplicateKey`. -/
theorem make_dictAux_mem_errs :
    ∀ (items res : REntries) (errs : List Diag) (d : Diag),
      d ∈ (make_dictAux res errs items).2 → d ∈ errs ∨ ∃ k, d = Diag.dup k
  | .nil, _, _, _ => fun h => .inl h
  | .cons k' v rest, res, errs, d => by
      intro h
      cases hres : (res.lookup k').isSome with
      | true =>
          rw [make_dictAux_cons_true res errs k' v rest hres] at h
          rcases make_dictAux_mem_errs rest (res.insert k' v)
            (errs ++ [Diag.dup k']) d h with h1 | h2
          · rcases List.mem_append.mp h1 with h3 | h4
            · exact .inl h3
            · exact .inr ⟨k', by simpa using h4⟩
          · exact .inr h2
      | false =>
          rw [make_dictAux_cons_false res errs k' v rest hres] at h
          exact make_dictAux_mem_errs rest (res.insert k' v) errs d h

mutual

theorem resolveValue_split (c : REntries) :
    ∀ v : Value, ∃ E V, (∀ e, resolveValue ⟨c, e⟩ v = (⟨c, e ++ E⟩, V)) ∧
      (∀ d ∈ E, d.isRedefinition = false)
  | .numberLit s =>
      ⟨[], .integer (pyIntBase2 s), fun e => by simp [resolveValue], by simp⟩
  | .constRef n => by
      cases h : c.lookup n with
      | some v => exact ⟨[], v, fun e => by simp [resolveValue, h], by simp⟩
      | none =>
          exact ⟨[.undefined n], .unresolved, fun e => by simp [resolveValue, h],
            by simp [Diag.isRedefinition]⟩
  | .tableExpr es => by
      obtain ⟨E, R, hE, hNR⟩ := resolveEntries_split c es
      refine ⟨E ++ (make_dict R).2, .table (make_dict R).1, fun e => by
        simp [resolveValue, hE e], fun d hd => ?_⟩
      rcases List.mem_append.mp hd with h1 | h2
      · exact hNR d h1
      · rcases make_dictAux_mem_errs R .nil [] d h2 with h3 | ⟨k, rfl⟩
        · simp at h3
        · rfl

theorem resolveEntries_split (c : REntries) :
    ∀ es : VEntries, ∃ E R, (∀ e, resolveEntries ⟨c, e⟩ es = (⟨c, e ++ E⟩, R)) ∧
      (∀ d ∈ E, d.isRedefinition = false)
  | .nil => ⟨[], .nil, fun e => by simp [resolveEntries], by simp⟩
  | .cons k v r => by
      obtain ⟨E1, V, h1, hNR1⟩ := resolveValue_split c v
      obtain ⟨E2, R, h2, hNR2⟩ := resolveEntries_split c r
      refine ⟨E1 ++ E2, .cons k V R, fun e => by
        simp [resolveEntries, h1, h2 (e ++ E1)], fun d hd => ?_⟩
      rcases List.mem_append.mp hd with hh | hh
      · exact hNR1 d hh
      · exact hNR2 d hh

end

/-! ### Binary literal arithmetic -/

theorem binDigits_eq_ofDigits : ∀ cs : List Char,
    binDigits cs =
      Nat.ofDigits 2 ((cs.map fun c => if c = '1' then (1 : Nat) else 0).reverse) := by
  intro cs
  induction cs using List.reverseRecOn with
  | nil => simp [binDigits, Nat.ofDigits]
  | append_singleton l c ih =>
      simp only [binDigits, List.foldl_append, List.foldl_cons, List.foldl_nil,
        List.map_append, List.map_cons, List.map_nil, List.reverse_append,
        List.reverse_cons, List.reverse_nil, List.nil_append, List.singleton_append,
        Nat.ofDigits_cons] at *
      rw [ih]
      ring

/-- Whether an `Except` result is a success. -/
def isOkE {α : Type} : Except String α → Bool
  | .ok _ => true
  | .error _ => false

/-! ### Duplicate-key accounting for `make_dict` -/

/-- Number of `DuplicateKey` diagnostics the `make_dict` loop emits for
key `k` over the remaining items, given whether `k` is already present
in the result dict (`b`). -/
def dupCount (b : Bool) (k : String) : REntries → Nat
  | .nil => 0
  | .cons k' _ r =>
      if k' = k then (if b then 1 else 0) + dupCount true k r
      else dupCount b k r

theorem dupCount_true (k : String) :
    ∀ items : REntries, dupCount true k items = items.countKey k
  | .nil => by simp [dupCount, REntries.countKey]
  | .cons k' v r => by
      by_cases h : k' = k <;>
        simp [dupCount, REntries.countKey, h, dupCount_true k r]

theorem dupCount_false (k : String) :
    ∀ items : REntries, 0 < items.countKey k →
      dupCount false k items = items.countKey k - 1
  | .nil => by intro h; simp [REntries.countKey] at h
  | .cons k' v r => by
      intro hpos
      by_cases h : k' = k
      · simp [dupCount, REntries.countKey, h, dupCount_true k r]
      · have hr : 0 < r.countKey k := by
          simpa [REntries.countKey, h] using hpos
        simp [dupCount, REntries.countKey, h, dupCount_false k r hr]

/-- The dict built by the `make_dict` loop is the same fold as `start`
(the error list does not influence it). -/
theorem make_dictAux_fst :
    ∀ (items res : REntries) (errs : List Diag),
      (make_dictAux res errs items).1 = start res items
  | .nil, res, errs => by simp [make_dictAux, start]
  | .cons k' v rest, res, errs => by
      cases hres : (res.lookup k').isSome with
      | true =>
          rw [make_dictAux_cons_true res errs k' v rest hres,
            make_dictAux_fst rest (res.insert k' v) (errs ++ [Diag.dup k'])]
          rfl
      | false =>
          rw [make_dictAux_cons_false res errs k' v rest hres,
            make_dictAux_fst rest (res.insert k' v) errs]
          rfl

theorem make_dictAux_dup_count (k : String) :
    ∀ (items res : REntries) (errs : List Diag),
      ((make_dictAux res errs items).2).countP (· == Diag.dup k) =
        errs.countP (· == Diag.dup k) + dupCount ((res.lookup k).isSome) k items
  | .nil, res, errs => by simp [make_dictAux, dupCount]
  | .cons k' v rest, res, errs => by
      by_cases hk : k' = k
      · subst hk
        cases hres : (res.lookup k').isSome with
        | true =>
            have ih := make_dictAux_dup_count k' rest (res.insert k' v)
              (errs ++ [Diag.dup k'])
            rw [make_dictAux_cons_true res errs k' v rest hres, ih,
              REntries.lookup_insert]
            simp [dupCount, hres, List.countP_append, List.countP_cons]
            omega
        | false =>
            have ih := make_dictAux_dup_count k' rest (res.insert k' v) errs
            rw [make_dictAux_cons_false res errs k' v rest hres, ih,
              REntries.lookup_insert]
            simp [dupCount, hres]
      · have hlook : ((res.insert k' v).lookup k).isSome = (res.lookup k).isSome := by
          rw [REntries.lookup_insert]; simp [hk]
        have hne : (Diag.dup k' == Diag.dup k) = false := by simp [hk]
        cases hres : (res.lookup k').isSome with
        | true =>
            have ih := make_dictAux_dup_count k rest (res.insert k' v)
              (errs ++ [Diag.dup k'])
            rw [make_dictAux_cons_true res errs k' v rest hres, ih, hlook]
            simp [dupCount, hk, List.countP_append, List.countP_cons, hne]
        | false =>
            have ih := make_dictAux_dup_count k rest (res.insert k' v) errs
            rw [make_dictAux_cons_false res errs k' v rest hres, ih, hlook]
            simp [dupCount, hk]

theorem start_lookup (k : String) :
    ∀ (items res : REntries),
      (start res items).lookup k =
        match items.lastVal k with
        | some w => some w
        | none => res.lookup k
  | .nil, res => by simp [start, REntries.lastVal]
  | .cons k' v rest, res => by
      have ih := start_lookup k rest (res.insert k' v)
      cases hrest : rest.lastVal k with
      | some w => simp [start, ih, hrest, REntries.lastVal]
      | none =>
          by_cases hk : k' = k
          · subst hk
            simp [start, ih, hrest, REntries.lastVal, REntries.lookup_insert]
          · simp [start, ih, hrest, REntries.lastVal, REntries.lookup_insert, hk]

theorem start_keys :
    ∀ (items res : REntries), (start res items).keys = addKeys res.keys items.keys
  | .nil, res => by simp [start, addKeys]
  | .cons k' v rest, res => by
      have ih := start_keys rest (res.insert k' v)
      rw [show (REntries.cons k' v rest).keys = k' :: rest.keys from rfl]
      cases hres : (res.lookup k').isSome with
      | true =>
          have hmem : k' ∈ res.keys := (REntries.lookup_isSome_iff_mem k' res).mp hres
          simp [start, ih, REntries.keys_insert, hres, addKeys, hmem]
      | false =>
          have hmem : ¬ k' ∈ res.keys := fun h =>
            by simp [(REntries.lookup_isSome_iff_mem k' res).mpr h] at hres
          simp [start, ih, REntries.keys_insert, hres, addKeys, hmem]

/-! ### Serializer refinement -/

mutual

/-- No `Unresolved` sentinel anywhere in a resolved value. -/
def RVal.noUnres : RVal → Bool
  | .integer _ => true
  | .table es => es.noUnres
  | .unresolved => false

/-- No `Unresolved` sentinel anywhere in a table. -/
def REntries.noUnres : REntries → Bool
  | .nil => true
  | .cons _ v r => v.noUnres && r.noUnres

end

/-- The serializer as worded by the spec, one rendered string per entry:
an `Integer` entry renders as the line `key = <decimal>`; a `Table`
entry renders as the `[key]` header (with `indent` two-space pads),
a newline, and the recursive rendering of the nested table at
`indent + 1`; the entry renderings are joined with newlines.  The spec
gives no rendering for `Unresolved` (its precondition excludes it), so
that case is rendered as an empty string here. -/
def serializerSpecStrs (indent : Nat) : REntries → List String
  | .nil => []
  | .cons k (.integer n) r =>
      (pad indent ++ k ++ " = " ++ toString n) :: serializerSpecStrs indent r
  | .cons k (.table inner) r =>
      (pad indent ++ "[" ++ k ++ "]" ++ "\n" ++ joinNL (serializerSpecStrs (indent + 1) inner)) ::
        serializerSpecStrs indent r
  | .cons _ .unresolved r => "" :: serializerSpecStrs indent r

/-- Joined form of `serializerSpecStrs`; no trailing newline. -/
def serializerSpec (data : REntries) (indent : Nat) : String :=
  joinNL (serializerSpecStrs indent data)

theorem joinNL_cons_ne (x : String) {l : List String} (h : l ≠ []) :
    joinNL (x :: l) = x ++ "\n" ++ joinNL l := by
  cases l with
  | nil => exact absurd rfl h
  | cons a r => rfl

theorem toTomlLines_eq_nil_iff (i : Nat) :
    ∀ d : REntries, toTomlLines i d = [] ↔ d = .nil
  | .nil => by simp [toTomlLines]
  | .cons k v r => by
      cases v <;> simp [toTomlLines]

theorem serializerSpecStrs_eq_nil_iff (i : Nat) :
    ∀ d : REntries, serializerSpecStrs i d = [] ↔ d = .nil
  | .nil => by simp [serializerSpecStrs]
  | .cons k v r => by
      cases v <;> simp [serializerSpecStrs]

theorem joinNL_cons_congr (x : String) {A B : List String}
    (hiff : A = [] ↔ B = []) (h : joinNL A = joinNL B) :
    joinNL (x :: A) = joinNL (x :: B) := by
  cases A with
  | nil =>
      cases B with
      | nil => rfl
      | cons b B' => simp at hiff
  | cons a A' =>
      cases B with
      | nil => simp at hiff
      | cons b B' =>
          show x ++ "\n" ++ joinNL (a :: A') = x ++ "\n" ++ joinNL (b :: B')
          rw [h]

/-! ### The top-level pass: constant table and redefinition accounting -/

theorem declare_const_split (c : REntries) (n : String) (v : Value) :
    ∃ E V, (∀ e, resolveValue ⟨c, e⟩ v = (⟨c, e ++ E⟩, V)) ∧
      (∀ d ∈ E, d.isRedefinition = false) ∧
      (∀ e, declare_const ⟨c, e⟩ n v =
        ⟨c.insert n V,
          e ++ E ++ (if (c.lookup n).isSome then [Diag.redefinition n] else [])⟩) := by
  obtain ⟨E, V, hE, hNR⟩ := resolveValue_split c v
  refine ⟨E, V, hE, hNR, fun e => ?_⟩
  cases h : (c.lookup n).isSome with
  | true => simp [declare_const, hE e, h]
  | false => simp [declare_const, hE e, h]

/-- Number of `Redefinition` diagnostics for the name `n` that the pass
emits over the remaining statements, given whether `n` is already bound
in the constant table (`b`). -/
def redefAux (b : Bool) (n : String) : List Stmt → Nat
  | [] => 0
  | .constDecl m _ :: r =>
      if m = n then (if b then 1 else 0) + redefAux true n r
      else redefAux b n r
  | .dictEntry _ _ :: r => redefAux b n r

theorem redefAux_zero (n : String) :
    ∀ (l : List Stmt) (b : Bool), countDecl n l = 0 → redefAux b n l = 0
  | [], _, _ => rfl
  | .constDecl m v :: r, b, h => by
      have hm : ¬ m = n := by intro he; simp [countDecl, he] at h
      have hr := redefAux_zero n r b (by simpa [countDecl, hm] using h)
      simp [redefAux, hm, hr]
  | .dictEntry k v :: r, b, h => by
      have hr := redefAux_zero n r b (by simpa [countDecl] using h)
      simp [redefAux, hr]

theorem redefAux_false_of_le_one (n : String) :
    ∀ l : List Stmt, countDecl n l ≤ 1 → redefAux false n l = 0
  | [], _ => rfl
  | .constDecl m v :: r, h => by
      by_cases hm : m = n
      · subst hm
        have h' : 1 + countDecl m r ≤ 1 := by simpa [countDecl] using h
        have hr : countDecl m r = 0 := by omega
        simp [redefAux, redefAux_zero m r true hr]
      · have hr := redefAux_false_of_le_one n r (by simpa [countDecl, hm] using h)
        simp [redefAux, hm, hr]
  | .dictEntry k v :: r, h => by
      have hr := redefAux_false_of_le_one n r (by simpa [countDecl] using h)
      simp [redefAux, hr]

theorem redefAux_append_true (n : String) :
    ∀ l1 l2 : List Stmt,
      redefAux true n (l1 ++ l2) = redefAux true n l1 + redefAux true n l2
  | [], l2 => by simp [redefAux]
  | .constDecl m v :: r, l2 => by
      by_cases hm : m = n <;>
        simp [redefAux, hm, redefAux_append_true n r l2] <;> omega
  | .dictEntry k v :: r, l2 => by
      simp [redefAux, redefAux_append_true n r l2]

theorem redefAux_append_pos (n : String) :
    ∀ l1 l2 : List Stmt, 0 < countDecl n l1 →
      redefAux false n (l1 ++ l2) = redefAux false n l1 + redefAux true n l2
  | [], _, h => by simp [countDecl] at h
  | .constDecl m v :: r, l2, h => by
      by_cases hm : m = n
      · subst hm
        simp [redefAux, redefAux_append_true _ r l2]
      · have hr : 0 < countDecl n r := by simpa [countDecl, hm] using h
        simp [redefAux, hm, redefAux_append_pos n r l2 hr]
  | .dictEntry k v :: r, l2, h => by
      have hr : 0 < countDecl n r := by simpa [countDecl] using h
      simp [redefAux, redefAux_append_pos n r l2 hr]

/-- Statements with no `const_decl` for `n` leave its binding unchanged. -/
theorem transformStmts_constants_frame (n : String) :
    ∀ (stmts : List Stmt) (st : ConfigTransformer),
      countDecl n stmts = 0 →
      (transformStmts st stmts).1.constants.lookup n = st.constants.lookup n
  | [], _, _ => rfl
  | .constDecl m v :: r, st, h => by
      obtain ⟨c, e⟩ := st
      have hm : ¬ m = n := by intro he; simp [countDecl, he] at h
      have hr : countDecl n r = 0 := by simpa [countDecl, hm] using h
      obtain ⟨E, V, hv, hNR, hd⟩ := declare_const_split c m v
      simp only [transformStmts]
      rw [hd e, transformStmts_constants_frame n r _ hr]
      simp [REntries.lookup_insert, hm]
  | .dictEntry k v :: r, st, h => by
      obtain ⟨c, e⟩ := st
      have hr : countDecl n r = 0 := by simpa [countDecl] using h
      obtain ⟨E, V, hv, hNR⟩ := resolveValue_split c v
      simp only [transformStmts]
      rw [hv e, transformStmts_constants_frame n r _ hr]

/-- The pass over `l1 ++ l2` is the pass over `l1` followed by the pass
over `l2` from the intermediate state, with the item lists appended. -/
theorem transformStmts_append :
    ∀ (l1 l2 : List Stmt) (st : ConfigTransformer),
      transformStmts st (l1 ++ l2) =
        ((transformStmts (transformStmts st l1).1 l2).1,
         (transformStmts st l1).2.append (transformStmts (transformStmts st l1).1 l2).2)
  | [], l2, st => by simp [transformStmts, REntries.append]
  | .constDecl m v :: r, l2, st => by
      simp only [List.cons_append, transformStmts, List.append_eq]
      rw [transformStmts_append r l2 (declare_const st m v)]
  | .dictEntry k v :: r, l2, st => by
      simp only [List.cons_append, transformStmts, List.append_eq]
      rw [transformStmts_append r l2 (resolveValue st v).1]
      simp [REntries.append]

/-- After the pass, a name whose last declaration is `constDecl n v`
(nothing in `B` re-declares it) is bound to the value of `v` resolved in
the constant table as it stood at that declaration. -/
theorem transformStmts_last_decl (n : String) (v : Value) :
    ∀ (A B : List Stmt) (st : ConfigTransformer), countDecl n B = 0 →
      (transformStmts st (A ++ .constDecl n v :: B)).1.constants.lookup n =
        some ((resolveValue ⟨(transformStmts st A).1.constants, []⟩ v).2) := by
  intro A B st hB
  rw [transformStmts_append A (.constDecl n v :: B) st]
  rcases hst : (transformStmts st A).1 with ⟨c1, e1⟩
  obtain ⟨E, V, hv, hNR, hd⟩ := declare_const_split c1 n v
  simp only [transformStmts]
  rw [hd e1, transformStmts_constants_frame n B _ hB]
  simp [REntries.lookup_insert, hv []]

/-- Redefinition accounting: the number of `Redefinition` diagnostics
for `n` in the final error list is `redefAux` of the initial binding
state, because value resolution itself never emits `Redefinition`. -/
theorem transformStmts_redef_count (n : String) :
    ∀ (stmts : List Stmt) (st : ConfigTransformer),
      ((transformStmts st stmts).1.errors).countP (· == Diag.redefinition n) =
        st.errors.countP (· == Diag.redefinition n) +
          redefAux ((st.constants.lookup n).isSome) n stmts
  | [], st => by simp [transformStmts, redefAux]
  | .constDecl m v :: r, st => by
      obtain ⟨c, e⟩ := st
      obtain ⟨E, V, hv, hNR, hd⟩ := declare_const_split c m v
      have hE0 : E.countP (· == Diag.redefinition n) = 0 := by
        rw [List.countP_eq_zero]
        intro d hdE
        have hfalse := hNR d hdE
        cases d <;> simp_all [Diag.isRedefinition]
      simp only [transformStmts]
      rw [hd e, transformStmts_redef_count n r _]
      simp only [List.countP_append, hE0]
      by_cases hm : m = n
      · subst hm
        cases hc : (c.lookup m).isSome with
        | true =>
            simp [redefAux, hc, REntries.lookup_insert, List.countP_cons]
            omega
        | false =>
            simp [redefAux, hc, REntries.lookup_insert]
      · have hflag : ((c.insert m V).lookup n).isSome = (c.lookup n).isSome := by
          rw [REntries.lookup_insert]; simp [hm]
        have hcount0 :
            (if (c.lookup m).isSome then [Diag.redefinition m] else []).countP
              (· == Diag.redefinition n) = 0 := by
          cases hc : (c.lookup m).isSome <;> simp [hm]
        rw [hflag, hcount0]
        simp [redefAux, hm]
  | .dictEntry k v :: r, st => by
      obtain ⟨c, e⟩ := st
      obtain ⟨E, V, hv, hNR⟩ := resolveValue_split c v
      have hE0 : E.countP (· == Diag.redefinition n) = 0 := by
        rw [List.countP_eq_zero]
        intro d hdE
        have hfalse := hNR d hdE
        cases d <;> simp_all [Diag.isRedefinition]
      simp only [transformStmts]
      rw [hv e, transformStmts_redef_count n r _]
      simp [List.countP_append, hE0, redefAux]

/-! ### Key provenance: every output key comes from a `dict_entry` -/

mutual

/-- All keys occurring anywhere in a resolved value. -/
def RVal.treeKeys : RVal → List String
  | .integer _ => []
  | .unresolved => []
  | .table es => es.treeKeys

/-- All keys occurring in a table, at any depth. -/
def REntries.treeKeys : REntries → List String
  | .nil => []
  | .cons k v r => k :: (v.treeKeys ++ r.treeKeys)

end

/-- All keys occurring in the *values* of a table (not its own keys);
used for the constant table, whose keys are constant names. -/
def REntries.valsKeys : REntries → List String
  | .nil => []
  | .cons _ v r => v.treeKeys ++ r.valsKeys

mutual

/-- All `dict_entry` keys occurring syntactically inside a value. -/
def Value.entryKeys : Value → List String
  | .numberLit _ => []
  | .constRef _ => []
  | .tableExpr es => es.entryKeys

/-- All `dict_entry` keys of an entry list, including nested ones. -/
def VEntries.entryKeys : VEntries → List String
  | .nil => []
  | .cons k v r => k :: (v.entryKeys ++ r.entryKeys)

end

/-- All `dict_entry` keys occurring syntactically in a statement. -/
def Stmt.entryKeys : Stmt → List String
  | .constDecl _ v => v.entryKeys
  | .dictEntry k v => k :: v.entryKeys

/-- All `dict_entry` keys of a program. -/
def progEntryKeys : List Stmt → List String
  | [] => []
  | s :: r => s.entryKeys ++ progEntryKeys r

theorem REntries.treeKeys_insert (k : String) (v : RVal) :
    ∀ (d : REntries) (x : String), x ∈ (d.insert k v).treeKeys →
      x = k ∨ x ∈ v.treeKeys ∨ x ∈ d.treeKeys
  | .nil, x => by
      intro hx
      simp [REntries.insert, REntries.treeKeys] at hx
      tauto
  | .cons k' v' r, x => by
      intro hx
      by_cases hk : k' = k
      · subst hk
        simp [REntries.insert, REntries.treeKeys] at hx ⊢
        tauto
      · simp [REntries.insert, REntries.treeKeys, hk] at hx ⊢
        rcases hx with h | h | h
        · tauto
        · tauto
        · rcases REntries.treeKeys_insert k v r x h with h1 | h1 | h1 <;> tauto

theorem start_treeKeys :
    ∀ (items res : REntries) (x : String), x ∈ (start res items).treeKeys →
      x ∈ res.treeKeys ∨ x ∈ items.treeKeys
  | .nil, res, x => fun h => .inl h
  | .cons k v rest, res, x => by
      intro hx
      rcases start_treeKeys rest (res.insert k v) x hx with h | h
      · rcases REntries.treeKeys_insert k v res x h with h1 | h1 | h1 <;>
          simp [REntries.treeKeys, h1] <;> tauto
      · simp [REntries.treeKeys]
        tauto

theorem REntries.lookup_treeKeys :
    ∀ (c : REntries) (n : String) (v : RVal), c.lookup n = some v →
      ∀ x ∈ v.treeKeys, x ∈ c.valsKeys
  | .nil, n, v => by intro h; simp [REntries.lookup] at h
  | .cons k' v' r, n, v => by
      intro h x hx
      by_cases hk : k' = n
      · have hv : v' = v := by simpa [REntries.lookup, hk] using h
        subst hv
        simp [REntries.valsKeys]
        tauto
      · have h' : r.lookup n = some v := by simpa [REntries.lookup, hk] using h
        have := REntries.lookup_treeKeys r n v h' x hx
        simp [REntries.valsKeys]
        tauto

theorem REntries.valsKeys_insert (n : String) (v : RVal) :
    ∀ (c : REntries) (x : String), x ∈ (c.insert n v).valsKeys →
      x ∈ v.treeKeys ∨ x ∈ c.valsKeys
  | .nil, x => by
      intro hx
      simp [REntries.insert, REntries.valsKeys] at hx
      tauto
  | .cons k' v' r, x => by
      intro hx
      by_cases hk : k' = n
      · subst hk
        simp [REntries.insert, REntries.valsKeys] at hx ⊢
        tauto
      · simp [REntries.insert, REntries.valsKeys, hk] at hx ⊢
        rcases hx with h | h
        · tauto
        · rcases REntries.valsKeys_insert n v r x h with h1 | h1 <;> tauto

mutual

/-- Every key in a resolved value comes from a `dict_entry` inside the
source value or from a value already stored in the constant table. -/
theorem resolveValue_treeKeys :
    ∀ (v : Value) (c : REntries) (e : List Diag) (x : String),
      x ∈ ((resolveValue ⟨c, e⟩ v).2).treeKeys →
        x ∈ v.entryKeys ∨ x ∈ c.valsKeys
  | .numberLit s, c, e, x => by
      intro hx
      simp [resolveValue, RVal.treeKeys] at hx
  | .constRef n, c, e, x => by
      intro hx
      cases h : c.lookup n with
      | some w =>
          simp only [resolveValue, h] at hx
          exact .inr (REntries.lookup_treeKeys c n w h x hx)
      | none => simp [resolveValue, h, RVal.treeKeys] at hx
  | .tableExpr es, c, e, x => by
      intro hx
      simp only [resolveValue, RVal.treeKeys] at hx
      rw [make_dict, make_dictAux_fst] at hx
      rcases start_treeKeys _ .nil x hx with h | h
      · simp [REntries.treeKeys] at h
      · rcases resolveEntries_treeKeys es c e x h with h2 | h2
        · exact .inl h2
        · exact .inr h2

theorem resolveEntries_treeKeys :
    ∀ (es : VEntries) (c : REntries) (e : List Diag) (x : String),
      x ∈ ((resolveEntries ⟨c, e⟩ es).2).treeKeys →
        x ∈ es.entryKeys ∨ x ∈ c.valsKeys
  | .nil, c, e, x => by
      intro hx
      simp [resolveEntries, REntries.treeKeys] at hx
  | .cons k v r, c, e, x => by
      intro hx
      obtain ⟨E1, V, h1, _⟩ := resolveValue_split c v
      simp only [resolveEntries] at hx
      rw [h1 e] at hx
      simp only [REntries.treeKeys] at hx
      rcases List.mem_cons.mp hx with rfl | hx2
      · exact .inl (by simp [VEntries.entryKeys])
      rcases List.mem_append.mp hx2 with h | h
      · rcases resolveValue_treeKeys v c e x (by rw [h1 e]; exact h) with h3 | h3
        · refine .inl ?_
          simp [VEntries.entryKeys]
          tauto
        · exact .inr h3
      · rcases resolveEntries_treeKeys r c (e ++ E1) x h with h3 | h3
        · refine .inl ?_
          simp [VEntries.entryKeys]
          tauto
        · exact .inr h3

end

/-- Over the whole pass: every key in the produced items and every key
inside a constant's stored value comes from a `dict_entry` of the
program or from a value already in the initial constant table. -/
theorem transformStmts_keys_inv :
    ∀ (stmts : List Stmt) (c : REntries) (e : List Diag) (x : String),
      (x ∈ ((transformStmts ⟨c, e⟩ stmts).2).treeKeys →
        x ∈ progEntryKeys stmts ∨ x ∈ c.valsKeys) ∧
      (x ∈ ((transformStmts ⟨c, e⟩ stmts).1.constants).valsKeys →
        x ∈ progEntryKeys stmts ∨ x ∈ c.valsKeys)
  | [], c, e, x => by
      constructor
      · intro hx; simp [transformStmts, REntries.treeKeys] at hx
      · intro hx; right; simpa [transformStmts] using hx
  | .constDecl n v :: r, c, e, x => by
      obtain ⟨E, V, hv, hNR, hd⟩ := declare_const_split c n v
      have hstep : ∀ y, y ∈ (c.insert n V).valsKeys →
          y ∈ v.entryKeys ∨ y ∈ c.valsKeys := by
        intro y hy
        rcases REntries.valsKeys_insert n V c y hy with h1 | h1
        · exact resolveValue_treeKeys v c [] y (by rw [hv []]; exact h1)
        · exact .inr h1
      constructor
      · intro hx
        simp only [transformStmts] at hx
        rw [hd e] at hx
        rcases (transformStmts_keys_inv r (c.insert n V)
            (e ++ E ++ (if (c.lookup n).isSome then [Diag.redefinition n] else [])) x).1 hx with
          h1 | h1
        · refine .inl ?_
          simp [progEntryKeys, Stmt.entryKeys]
          tauto
        · rcases hstep x h1 with h2 | h2
          · refine .inl ?_
            simp [progEntryKeys, Stmt.entryKeys]
            tauto
          · exact .inr h2
      · intro hx
        simp only [transformStmts] at hx
        rw [hd e] at hx
        rcases (transformStmts_keys_inv r (c.insert n V)
            (e ++ E ++ (if (c.lookup n).isSome then [Diag.redefinition n] else [])) x).2 hx with
          h1 | h1
        · refine .inl ?_
          simp [progEntryKeys, Stmt.entryKeys]
          tauto
        · rcases hstep x h1 with h2 | h2
          · refine .inl ?_
            simp [progEntryKeys, Stmt.entryKeys]
            tauto
          · exact .inr h2
  | .dictEntry k v :: r, c, e, x => by
      obtain ⟨E, V, hv, hNR⟩ := resolveValue_split c v
      constructor
      · intro hx
        simp only [transformStmts] at hx
        rw [hv e] at hx
        simp only [REntries.treeKeys] at hx
        rcases List.mem_cons.mp hx with rfl | hx2
        · refine .inl ?_
          simp [progEntryKeys, Stmt.entryKeys]
        rcases List.mem_append.mp hx2 with h | h
        · rcases resolveValue_treeKeys v c e x (by rw [hv e]; exact h) with h2 | h2
          · refine .inl ?_
            simp [progEntryKeys, Stmt.entryKeys]
            tauto
          · exact .inr h2
        · rcases (transformStmts_keys_inv r c (e ++ E) x).1 h with h2 | h2
          · refine .inl ?_
            simp [progEntryKeys]
            tauto
          · exact .inr h2
      · intro hx
        simp only [transformStmts] at hx
        rw [hv e] at hx
        rcases (transformStmts_keys_inv r c (e ++ E) x).2 hx with h2 | h2
        · refine .inl ?_
          simp [progEntryKeys]
          tauto
        · exact .inr h2

/-- The keys of the item list produced by the pass are exactly the
top-level `dict_entry` keys, in document order. -/
theorem transformStmts_items_keys :
    ∀ (stmts : List Stmt) (st : ConfigTransformer),
      ((transformStmts st stmts).2).keys = topEntryKeys stmts
  | [], _ => rfl
  | .constDecl n v :: r, st => by
      simp only [transformStmts, topEntryKeys]
      exact transformStmts_items_keys r _
  | .dictEntry k v :: r, st => by
      simp only [transformStmts, topEntryKeys, REntries.keys]
      rw [transformStmts_items_keys r _]

theorem mem_addKeys :
    ∀ (l acc : List String) (x : String), x ∈ addKeys acc l ↔ x ∈ acc ∨ x ∈ l
  | [], acc, x => by simp [addKeys]
  | k :: r, acc, x => by
      by_cases hk : k ∈ acc
      · rw [show addKeys acc (k :: r) = addKeys acc r by simp [addKeys, hk]]
        rw [mem_addKeys r acc x]
        constructor
        · tauto
        · rintro (h | h)
          · tauto
          · rcases List.mem_cons.mp h with rfl | h2
            · exact .inl hk
            · tauto
      · rw [show addKeys acc (k :: r) = addKeys (acc ++ [k]) r by simp [addKeys, hk]]
        rw [mem_addKeys r (acc ++ [k]) x]
        simp [List.mem_append]
        tauto

/-! ## Claim theorems -/

/-- C5: for every valid binary literal `0b<digits>` or `0B<digits>` (one
or more of `0`/`1`), the resolved `Integer` equals the exact base-2 value
of `<digits>` (here expressed independently through `Nat.ofDigits 2` on
the little-endian digit list), with no wraparound for literals of any
length; in particular `0b101` resolves to `5`. -/
theorem binary_literal_exact (cs : List Char) (st : ConfigTransformer)
    (hne : cs ≠ []) (hbits : ∀ c ∈ cs, c = '0' ∨ c = '1') :
    (resolveValue st (.numberLit (String.mk ('0' :: 'b' :: cs))) =
      (st, .integer (Nat.ofDigits 2 ((cs.map fun c => if c = '1' then (1 : Nat) else 0).reverse)))) ∧
    (resolveValue st (.numberLit (String.mk ('0' :: 'B' :: cs))) =
      (st, .integer (Nat.ofDigits 2 ((cs.map fun c => if c = '1' then (1 : Nat) else 0).reverse)))) ∧
    pyIntBase2 "0b101" = 5 := by
  refine ⟨?_, ?_, by decide⟩ <;>
    simp [resolveValue, pyIntBase2, binDigits_eq_ofDigits]

/-- Witness for C5: instantiated at the literal `0b101` (value 5) in the
initial transformer state. -/
theorem binary_literal_exact_witness :
    resolveValue ⟨.nil, []⟩ (.numberLit (String.mk ['0', 'b', '1', '0', '1'])) =
      (⟨.nil, []⟩, .integer (Nat.ofDigits 2
        ((['1', '0', '1'].map fun c => if c = '1' then (1 : Nat) else 0).reverse))) :=
  (binary_literal_exact ['1', '0', '1'] ⟨.nil, []⟩ (by decide) (by decide)).1

/-- C9: the serializer's output depends only on the table argument and
the indent level (the shallow embedding of `to_toml` takes exactly these
two arguments and no other state), so two invocations on the same
resolved table yield byte-identical text. -/
theorem to_toml_deterministic (d d' : REntries) (i i' : Nat)
    (hd : d = d') (hi : i = i') : to_toml d i = to_toml d' i' := by
  subst hd; subst hi; rfl

/-- Witness for C9: serializing the table `{port = 8, db = {host = 1}}`
twice yields the same text. -/
theorem to_toml_deterministic_witness :
    to_toml (.cons "port" (.integer 8) (.cons "db" (.table (.cons "host" (.integer 1) .nil)) .nil)) 0 =
      to_toml (.cons "port" (.integer 8) (.cons "db" (.table (.cons "host" (.integer 1) .nil)) .nil)) 0 :=
  to_toml_deterministic _ _ 0 0 rfl rfl

/-- C10: an entry whose value is the empty table contributes the lines
`[key]` and `""` (the recursive call returns the empty string, which is
still joined with a newline), so the entry renders as `[key]` followed
by a newline and an empty line; and `table([])` is grammatical. -/
theorem empty_table_entry (k : String) (i : Nat) :
    toTomlLines i (.cons k (.table .nil) .nil) = [pad i ++ "[" ++ k ++ "]", ""] ∧
    to_toml (.cons k (.table .nil) .nil) i = pad i ++ "[" ++ k ++ "]" ++ "\n" ∧
    parseProgram [.ident "x", .equals, .ident "table", .lparen, .lbracket, .rbracket, .rparen] =
      .ok [.dictEntry "x" (.tableExpr .nil)] ∧
    mainRun "x = table([])" = (0, "[x]\n\n", "") := by
  refine ⟨?_, ?_, rfl, by decide⟩
  · simp [toTomlLines, joinNL]
  · simp [to_toml, toTomlLines, joinNL]

/-- C1: a `ConstRef` resolves to a constant's value only if that
constant was declared strictly earlier in document order: (i) when no
declaration of `n` occurs among the statements already processed
(declared only later, or never), resolving `.(n).` appends an
`UndefinedConstant` diagnostic and yields the `Unresolved` sentinel;
(ii) when the most recent declaration of `n` among the processed
statements is `n : v`, the reference yields that declaration's resolved
value (resolved in the constant table as it stood at the declaration);
(iii) in particular `x: .(y).; y: 0b1;` flags `y` as undefined. -/
theorem const_ref_document_order :
    (∀ (stmts : List Stmt) (n : String) (e : List Diag),
      countDecl n stmts = 0 →
      resolveValue ⟨(transformStmts ⟨.nil, []⟩ stmts).1.constants, e⟩ (.constRef n) =
        (⟨(transformStmts ⟨.nil, []⟩ stmts).1.constants, e ++ [.undefined n]⟩, .unresolved)) ∧
    (∀ (A : List Stmt) (n : String) (v : Value) (B : List Stmt) (e : List Diag),
      countDecl n B = 0 →
      resolveValue
          ⟨(transformStmts ⟨.nil, []⟩ (A ++ .constDecl n v :: B)).1.constants, e⟩
          (.constRef n) =
        (⟨(transformStmts ⟨.nil, []⟩ (A ++ .constDecl n v :: B)).1.constants, e⟩,
          (resolveValue ⟨(transformStmts ⟨.nil, []⟩ A).1.constants, []⟩ v).2)) ∧
    transform [.constDecl "x" (.constRef "y"), .constDecl "y" (.numberLit "0b1")] =
      (⟨.cons "x" .unresolved (.cons "y" (.integer 1) .nil), [.undefined "y"]⟩, .nil) := by
  refine ⟨fun stmts n e h => ?_, fun A n v B e hB => ?_, by decide⟩
  · have hnone : (transformStmts ⟨.nil, []⟩ stmts).1.constants.lookup n = none := by
      rw [transformStmts_constants_frame n stmts _ h]
      rfl
    simp [resolveValue, hnone]
  · have hsome := transformStmts_last_decl n v A B ⟨.nil, []⟩ hB
    simp [resolveValue, hsome]

/-- Witness for C1: (i) instantiated at the empty prefix (nothing
declared yet) and (ii) at the one-declaration program `y: 0b11;`. -/
theorem const_ref_document_order_witness :
    (resolveValue ⟨(transformStmts ⟨.nil, []⟩ ([] : List Stmt)).1.constants, []⟩
        (.constRef "y") =
      (⟨(transformStmts ⟨.nil, []⟩ ([] : List Stmt)).1.constants,
        [] ++ [.undefined "y"]⟩, .unresolved)) ∧
    (resolveValue
        ⟨(transformStmts ⟨.nil, []⟩
            (([] : List Stmt) ++ .constDecl "y" (.numberLit "0b11") :: [])).1.constants, []⟩
        (.constRef "y") =
      (⟨(transformStmts ⟨.nil, []⟩
            (([] : List Stmt) ++ .constDecl "y" (.numberLit "0b11") :: [])).1.constants, []⟩,
        (resolveValue ⟨(transformStmts ⟨.nil, []⟩ ([] : List Stmt)).1.constants, []⟩
          (.numberLit "0b11")).2)) :=
  ⟨const_ref_document_order.1 [] "y" [] (by decide),
   const_ref_document_order.2.1 [] "y" (.numberLit "0b11") [] [] (by decide)⟩

/-- C6: for a program whose statements declare the name `n` exactly
twice (once in `A`, the second time explicitly, never in `B`),
resolution appends exactly one `Redefinition` diagnostic for `n`, the
constant table afterwards maps `n` to the second declaration's resolved
value (last write wins), and a subsequent entry `k = .(n).` receives
that value in the output table. -/
theorem const_redefinition (A : List Stmt) (n : String) (v2 : Value) (B : List Stmt)
    (hA : countDecl n A = 1) (hB : countDecl n B = 0) :
    (((transformStmts ⟨.nil, []⟩ (A ++ .constDecl n v2 :: B)).1.errors).countP
        (· == Diag.redefinition n) = 1) ∧
    ((transformStmts ⟨.nil, []⟩ (A ++ .constDecl n v2 :: B)).1.constants.lookup n =
      some ((resolveValue ⟨(transformStmts ⟨.nil, []⟩ A).1.constants, []⟩ v2).2)) ∧
    (∀ k, (transform ((A ++ .constDecl n v2 :: B) ++
        [.dictEntry k (.constRef n)])).2.lookup k =
      some ((resolveValue ⟨(transformStmts ⟨.nil, []⟩ A).1.constants, []⟩ v2).2)) := by
  refine ⟨?_, transformStmts_last_decl n v2 A B ⟨.nil, []⟩ hB, fun k => ?_⟩
  · rw [transformStmts_redef_count n (A ++ .constDecl n v2 :: B) ⟨.nil, []⟩]
    have h1 : redefAux false n (A ++ .constDecl n v2 :: B) = 1 := by
      rw [redefAux_append_pos n A (.constDecl n v2 :: B) (by omega)]
      rw [redefAux_false_of_le_one n A (by omega)]
      simp [redefAux, redefAux_zero n B true hB]
    simpa [REntries.lookup] using h1
  · have h2 := transformStmts_last_decl n v2 A B ⟨.nil, []⟩ hB
    simp only [transform]
    rw [transformStmts_append (A ++ .constDecl n v2 :: B)
      [.dictEntry k (.constRef n)] ⟨.nil, []⟩]
    rcases hstP : (transformStmts ⟨.nil, []⟩ (A ++ .constDecl n v2 :: B)).1 with ⟨cP, eP⟩
    rw [hstP] at h2
    simp only at h2
    have hp : resolveValue ⟨cP, eP⟩ (.constRef n) =
        (⟨cP, eP⟩,
          (resolveValue ⟨(transformStmts ⟨.nil, []⟩ A).1.constants, []⟩ v2).2) := by
      simp [resolveValue, h2]
    simp only [transformStmts, hp]
    rw [start_lookup k, REntries.lastVal_append]
    simp [REntries.lastVal]

/-- Witness for C6: the program `a: 0b1; a: 0b11;` (two declarations of
`a`), followed by the entry `p = .(a).`. -/
theorem const_redefinition_witness :
    (((transformStmts ⟨.nil, []⟩
          ([.constDecl "a" (.numberLit "0b1")] ++
            .constDecl "a" (.numberLit "0b11") :: [])).1.errors).countP
        (· == Diag.redefinition "a") = 1) ∧
    ((transformStmts ⟨.nil, []⟩
        ([.constDecl "a" (.numberLit "0b1")] ++
          .constDecl "a" (.numberLit "0b11") :: [])).1.constants.lookup "a" =
      some ((resolveValue
        ⟨(transformStmts ⟨.nil, []⟩ [.constDecl "a" (.numberLit "0b1")]).1.constants, []⟩
        (.numberLit "0b11")).2)) ∧
    ((transform (([.constDecl "a" (.numberLit "0b1")] ++
        .constDecl "a" (.numberLit "0b11") :: []) ++
        [.dictEntry "p" (.constRef "a")])).2.lookup "p" =
      some ((resolveValue
        ⟨(transformStmts ⟨.nil, []⟩ [.constDecl "a" (.numberLit "0b1")]).1.constants, []⟩
        (.numberLit "0b11")).2)) :=
  ⟨(const_redefinition [.constDecl "a" (.numberLit "0b1")] "a" (.numberLit "0b11") []
      (by decide) (by decide)).1,
   (const_redefinition [.constDecl "a" (.numberLit "0b1")] "a" (.numberLit "0b11") []
      (by decide) (by decide)).2.1,
   (const_redefinition [.constDecl "a" (.numberLit "0b1")] "a" (.numberLit "0b11") []
      (by decide) (by decide)).2.2 "p"⟩

/-- C2 counterexample: at the *top level* the `start` callback performs
no duplicate check, so the program `a = 0b1, a = 0b10` — in which the
key `a` occurs twice — produces zero diagnostics, not the one
`DuplicateKey` diagnostic the claim requires (while last-value-wins and
first-occurrence order still hold). -/
theorem top_level_duplicate_no_diag :
    (transform [.dictEntry "a" (.numberLit "0b1"),
                .dictEntry "a" (.numberLit "0b10")]).1.errors = [] ∧
    ¬ ((transform [.dictEntry "a" (.numberLit "0b1"),
                   .dictEntry "a" (.numberLit "0b10")]).1.errors.countP
          (· == Diag.dup "a") = 1) ∧
    (transform [.dictEntry "a" (.numberLit "0b1"),
                .dictEntry "a" (.numberLit "0b10")]).2 =
      .cons "a" (.integer 2) .nil := by
  refine ⟨by decide, by decide, by decide⟩

/-- C2 (amended): for every *nested* table (built by `make_dict`) in
which a key occurs n+1 times, resolution appends exactly n
`DuplicateKey` diagnostics for that key, the key's final value is that
of its last occurrence, and the key order is first-occurrence order;
a `tableExpr` resolves exactly through `make_dict` on its transformed
entries; at the *top level*, duplicate keys yield no diagnostic, though
the last value still wins. -/
theorem duplicate_key_diagnostics :
    (∀ (k : String) (items : REntries), 0 < items.countKey k →
      ((make_dict items).2.countP (· == Diag.dup k) = items.countKey k - 1) ∧
      ((make_dict items).1.lookup k = items.lastVal k) ∧
      ((make_dict items).1.keys = addKeys [] items.keys)) ∧
    (∀ (st : ConfigTransformer) (es : VEntries),
      resolveValue st (.tableExpr es) =
        (⟨(resolveEntries st es).1.constants,
          (resolveEntries st es).1.errors ++ (make_dict (resolveEntries st es).2).2⟩,
         .table (make_dict (resolveEntries st es).2).1)) ∧
    (∀ (k s1 s2 : String),
      transform [.dictEntry k (.numberLit s1), .dictEntry k (.numberLit s2)] =
        (⟨.nil, []⟩, .cons k (.integer (pyIntBase2 s2)) .nil)) := by
  refine ⟨fun k items hpos => ⟨?_, ?_, ?_⟩, fun st es => ?_, fun k s1 s2 => ?_⟩
  · rw [make_dict, make_dictAux_dup_count k items .nil []]
    simp [REntries.lookup, dupCount_false k items hpos]
  · rw [make_dict, make_dictAux_fst items .nil [], start_lookup k items .nil]
    cases h : items.lastVal k <;> simp [REntries.lookup]
  · rw [make_dict, make_dictAux_fst items .nil [], start_keys items .nil]
    rfl
  · rfl
  · simp [transform, transformStmts, resolveValue, start, REntries.insert]

/-- Witness items for C2: the key `a` occurs twice (`a = 1, b = 2, a = 3`). -/
def dupWitnessItems : REntries :=
  .cons "a" (.integer 1) (.cons "b" (.integer 2) (.cons "a" (.integer 3) .nil))

/-- Witness for C2's amended theorem, instantiated at `dupWitnessItems`. -/
theorem duplicate_key_diagnostics_witness :
    0 < dupWitnessItems.countKey "a" ∧
    ((make_dict dupWitnessItems).2.countP (· == Diag.dup "a") =
        dupWitnessItems.countKey "a" - 1 ∧
      (make_dict dupWitnessItems).1.lookup "a" = dupWitnessItems.lastVal "a" ∧
      (make_dict dupWitnessItems).1.keys = addKeys [] dupWitnessItems.keys) :=
  ⟨by decide, duplicate_key_diagnostics.1 "a" dupWitnessItems (by decide)⟩

/-- C7: the keys of the top-level output table are exactly the keys of
the top-level `dict_entry` statements, and every key anywhere in the
output tree (at any nesting level) is a `dict_entry` key of the
program — so a `const_decl` name never appears as an output key unless
it is also used as a `dict_entry` key. -/
theorem output_keys_from_entries :
    (∀ (stmts : List Stmt) (x : String),
      x ∈ ((transform stmts).2).keys ↔ x ∈ topEntryKeys stmts) ∧
    (∀ (stmts : List Stmt) (x : String),
      x ∈ ((transform stmts).2).treeKeys → x ∈ progEntryKeys stmts) := by
  constructor
  · intro stmts x
    simp only [transform]
    rw [start_keys, transformStmts_items_keys, mem_addKeys]
    simp [REntries.keys]
  · intro stmts x hx
    simp only [transform] at hx
    rcases start_treeKeys _ .nil x hx with h | h
    · simp [REntries.treeKeys] at h
    · rcases (transformStmts_keys_inv stmts .nil [] x).1 h with h2 | h2
      · exact h2
      · simp [REntries.valsKeys] at h2

/-- Witness program for C7: `a = table([ b = 0b1 ])`. -/
def keysWitnessProg : List Stmt :=
  [.dictEntry "a" (.tableExpr (.cons "b" (.numberLit "0b1") .nil))]

/-- Witness for C7: the nested key `b` occurs in the output tree and is
indeed a `dict_entry` key of the program. -/
theorem output_keys_from_entries_witness :
    "b" ∈ ((transform keysWitnessProg).2).treeKeys ∧
    "b" ∈ progEntryKeys keysWitnessProg :=
  ⟨by decide, output_keys_from_entries.2 keysWitnessProg "b" (by decide)⟩

/-- C8: for every resolved table free of `Unresolved` values, `to_toml`
produces exactly the spec's rendering: entries in insertion order,
`key = <decimal>` lines for integers, an unqualified `[key]` header
(indent two-space pads) followed by the recursive rendering at
`indent + 1` for tables, all joined with `"\n"` and with no trailing
newline (`serializerSpec` is the spec-worded serializer). -/
theorem to_toml_refines_spec :
    ∀ (d : REntries) (i : Nat), d.noUnres = true → to_toml d i = serializerSpec d i
  | .nil, _, _ => rfl
  | .cons k (.integer n) r, i, h => by
      have hr : r.noUnres = true := by
        simpa [REntries.noUnres, RVal.noUnres] using h
      have ih := to_toml_refines_spec r i hr
      simp only [to_toml, serializerSpec] at ih ⊢
      simp only [toTomlLines, serializerSpecStrs]
      exact joinNL_cons_congr _
        (by rw [toTomlLines_eq_nil_iff, serializerSpecStrs_eq_nil_iff]) ih
  | .cons k (.table inner) r, i, h => by
      have hsplit : inner.noUnres = true ∧ r.noUnres = true := by
        simpa [REntries.noUnres, RVal.noUnres, Bool.and_eq_true] using h
      have ihInner := to_toml_refines_spec inner (i + 1) hsplit.1
      have ihR := to_toml_refines_spec r i hsplit.2
      simp only [to_toml, serializerSpec] at ihInner ihR ⊢
      simp only [toTomlLines, serializerSpecStrs]
      rw [ihInner]
      by_cases hA : toTomlLines i r = []
      · have hrnil : r = .nil := (toTomlLines_eq_nil_iff i r).mp hA
        subst hrnil
        simp [toTomlLines, serializerSpecStrs, joinNL]
      · have hB : serializerSpecStrs i r ≠ [] := by
          rw [Ne, serializerSpecStrs_eq_nil_iff]
          exact fun hc => hA ((toTomlLines_eq_nil_iff i r).mpr hc)
        rw [joinNL_cons_ne _ (List.cons_ne_nil _ _), joinNL_cons_ne _ hA,
          joinNL_cons_ne _ hB, ihR]
        simp [String.append_assoc]
  | .cons k .unresolved r, i, h => by
      simp [REntries.noUnres, RVal.noUnres] at h

/-- Witness for C8: the table `{port = 8, db = {host = 1}}` is free of
`Unresolved` values and serializes identically under code and spec. -/
theorem to_toml_refines_spec_witness :
    (REntries.cons "port" (.integer 8)
      (.cons "db" (.table (.cons "host" (.integer 1) .nil)) .nil)).noUnres = true ∧
    to_toml (.cons "port" (.integer 8)
      (.cons "db" (.table (.cons "host" (.integer 1) .nil)) .nil)) 0 =
      serializerSpec (.cons "port" (.integer 8)
        (.cons "db" (.table (.cons "host" (.integer 1) .nil)) .nil)) 0 :=
  ⟨by decide, to_toml_refines_spec _ 0 (by decide)⟩

/-- C3 counterexample: the exact input
`a: 0b11; port = 0b1000; db = table([ host = 0b1; ]) ;` is *not*
accepted: the grammar allows `;` only after a `const_decl`, so parsing
fails, the pipeline exits with code 1 and prints nothing on stdout
(contradicting the claimed exit code 0 and TOML output). -/
theorem c3_input_is_syntax_error :
    (mainRun "a: 0b11; port = 0b1000; db = table([ host = 0b1; ]) ;").1 = 1 ∧
    (mainRun "a: 0b11; port = 0b1000; db = table([ host = 0b1; ]) ;").2.1 = "" ∧
    isOkE (Except.bind
      (lexText "a: 0b11; port = 0b1000; db = table([ host = 0b1; ]) ;") parseProgram) = false := by
  refine ⟨by decide, by decide, by decide⟩

/-- C3 amended: with the stray semicolons replaced by the commas the
grammar allows, the pipeline succeeds with exit code 0, no diagnostics,
and exactly the TOML lines `port = 8`, `[db]`, `  host = 1`. -/
theorem c3_amended_end_to_end :
    mainRun "a: 0b11; port = 0b1000, db = table([ host = 0b1, ])" =
      (0, "port = 8\n[db]\n  host = 1\n", "") := by decide

/-- C4 counterexample: on the exact input `x = .(missing).;` the parser
rejects the trailing `;` (a `dict_entry` has no semicolon), so the run
is a syntax error: stderr is *not* the claimed
`Error: Undefined constant 'missing'` line. -/
theorem c4_input_is_syntax_error :
    (mainRun "x = .(missing).;").1 = 1 ∧
    (mainRun "x = .(missing).;").2.1 = "" ∧
    ¬ ((mainRun "x = .(missing).;").2.2 = "Error: Undefined constant 'missing'\n") ∧
    ¬ ((mainRun "x = .(missing).;").2.2 = "Error: Undefined constant 'missing'") ∧
    isOkE (Except.bind (lexText "x = .(missing).;") parseProgram) = false := by
  refine ⟨by decide, by decide, by decide, by decide, by decide⟩

/-- C4 amended: without the trailing semicolon, `x = .(missing).`
terminates with exit code 1, writes exactly the line
`Error: Undefined constant 'missing'` to stderr, and nothing to stdout. -/
theorem c4_amended_end_to_end :
    mainRun "x = .(missing)." = (1, "", "Error: Undefined constant 'missing'\n") := by decide

end Config

